import Mathlib

/-!
Shallow embedding of the baseline feature scanner (index.js of the
baseline_demo repository): catalog normalization, catalog merging with an
ignore set, the script and style detectors, the per-file aggregation loop
and the policy evaluation, together with theorems checking the
natural-language specification against the code.

JavaScript values that matter here are booleans, strings, `undefined`/`null`
(modelled as `Option.none`) and objects (modelled as structures).  JS `Map`
is modelled as an association list with in-place overwrite on an existing
key and append on a fresh key, which matches the insertion-ordered
semantics of `Map.prototype.set`.  JS `Set` of strings is modelled as a
duplicate-free, insertion-ordered list.
-/

set_option autoImplicit false

namespace BaselineScan

/-- JS `String.prototype.toLowerCase` on the ASCII range, implemented over
the character list so that it evaluates inside the kernel. -/
def jsLower (s : String) : String :=
  String.mk (s.data.map Char.toLower)

/-- JS `String.prototype.endsWith`, implemented over the character list. -/
def jsEndsWith (s suf : String) : Bool :=
  decide (suf.data.length ≤ s.data.length) &&
    decide (s.data.drop (s.data.length - suf.data.length) = suf.data)

/-- Split a character list at every newline character.  The `\r` of a
`\r\n` pair is left on the chunk and removed by the trim that follows in
`parseIgnoreLines`, matching the JS split on the regex `\r?\n`. -/
def splitNl : List Char → List Char → List (List Char)
  | [], acc => [acc.reverse]
  | c :: rest, acc =>
      if c = '\n' then acc.reverse :: splitNl rest [] else splitNl rest (c :: acc)

/-- JS `String.prototype.trim` on a character list: drop whitespace from
both ends. -/
def trimChars (l : List Char) : List Char :=
  ((l.dropWhile Char.isWhitespace).reverse.dropWhile Char.isWhitespace).reverse

/-- A `baseline`/`status` value as it occurs in the catalog data: a boolean
or some other (string) status value passed through unchanged. -/
inductive BVal where
  | b (v : Bool)
  | s (v : String)
  deriving DecidableEq, Repr

/-- Canonical catalog entry produced by `normalizeFeatures` and by the
local-override construction in `run`.  `id` and `name` are `Option` because
the array input shape can leave either field `undefined`. -/
structure Feature where
  id : Option String
  name : Option String
  baseline : BVal
  description : String
  deriving DecidableEq, Repr

/-- Model of a JS `Map`: an association list, first occurrence of a key
wins on lookup. -/
abbrev JSMap (α β : Type) := List (α × β)

/-- `Map.prototype.get`. -/
def mapGet {α β : Type} [DecidableEq α] : JSMap α β → α → Option β
  | [], _ => none
  | p :: rest, k => if p.1 = k then some p.2 else mapGet rest k

/-- `Map.prototype.set`: overwrite in place when the key is present
(keeping its position), append otherwise. -/
def mapSet {α β : Type} [DecidableEq α] : JSMap α β → α → β → JSMap α β
  | [], k, v => [(k, v)]
  | p :: rest, k, v => if p.1 = k then (k, v) :: rest else p :: mapSet rest k v

/-- `Set.prototype.add` on a duplicate-free list model of a JS `Set`. -/
def setAdd {α : Type} [DecidableEq α] (l : List α) (x : α) : List α :=
  if x ∈ l then l else l ++ [x]

/-- `arrayOrSetHas o l` models `l.has(o)` / `l.includes(o)` where `l` holds
strings only and `o` may be `undefined`: `undefined` is never a member. -/
def optMem (o : Option String) (l : List String) : Bool :=
  match o with
  | some s => l.contains s
  | none => false

/-- One raw feature record as consumed by `normalizeFeatures` (either as an
array element or as the value part of an object entry).  Absent or nullish
fields are `none`. -/
structure RawFeature where
  id : Option String
  name : Option String
  baseline : Option BVal
  status : Option BVal
  description : Option String
  deriving DecidableEq, Repr

/-- The input of `normalizeFeatures`: a falsy value, an array of records,
or an object given by its `Object.entries` list. -/
inductive RawCatalog where
  | missing
  | arr (fs : List RawFeature)
  | obj (entries : List (String × RawFeature))
  deriving Repr

/-- Helper for `String.replace of the regex for whitespace runs with "-"`:
each maximal run of whitespace characters becomes a single `-`. -/
def collapseWsAux : Bool → List Char → List Char
  | _, [] => []
  | prevWs, c :: rest =>
      if c.isWhitespace then
        (if prevWs then [] else ['-']) ++ collapseWsAux true rest
      else
        c :: collapseWsAux false rest

/-- Collapse whitespace runs to single hyphens, as in the id derivation of
the array branch of `normalizeFeatures`. -/
def collapseWs (s : String) : String :=
  String.mk (collapseWsAux false s.data)

/-- `normalizeFeatures` from index.js: array branch uses
`f.id ?? (f.name ? f.name.toLowerCase().replace(ws, "-") : undefined)`,
`baseline: f.baseline ?? f.status ?? false`; object branch uses the entry
key as `id`, `name: data.name ?? id`, `baseline: data.baseline ?? false`. -/
def normalizeFeatures : RawCatalog → List Feature
  | .missing => []
  | .arr fs =>
      fs.map fun f =>
        { id :=
            match f.id with
            | some i => some i
            | none =>
                match f.name with
                | some n => if n = "" then none else some (collapseWs (jsLower n))
                | none => none,
          name := f.name,
          baseline := (f.baseline.orElse fun _ => f.status).getD (BVal.b false),
          description := f.description.getD "" }
  | .obj es =>
      es.map fun e =>
        { id := some e.1,
          name := some (e.2.name.getD e.1),
          baseline := e.2.baseline.getD (BVal.b false),
          description := e.2.description.getD "" }

/-- The value part of one `baseline.json` entry. -/
structure LocalData where
  baseline : Option BVal
  description : Option String
  deriving DecidableEq, Repr

/-- The local-override construction in `run`:
`{ id: name.toLowerCase(), name, baseline: data.baseline ?? false,
   description: data.description ?? "" }` for each entry of baseline.json. -/
def mkLocalOverrides (baselineJson : List (String × LocalData)) : List Feature :=
  baselineJson.map fun e =>
    { id := some (jsLower e.1),
      name := some e.1,
      baseline := e.2.baseline.getD (BVal.b false),
      description := e.2.description.getD "" }

/-- The skip condition of the merge loop in `run`:
`baselineIgnore.has(f.name?.toLowerCase()) || baselineIgnore.has(f.id)`.
Note the name is case-folded before the probe while the id is probed
exactly as stored. -/
def skipFeature (ignore : List String) (f : Feature) : Bool :=
  optMem (f.name.map jsLower) ignore || optMem f.id ignore

/-- One iteration of the merge loop in `run`. -/
def mergeStep (ignore : List String) (m : JSMap (Option String) Feature) (f : Feature) :
    JSMap (Option String) Feature :=
  if skipFeature ignore f then m else mapSet m (f.name.map jsLower) f

/-- The merge in `run`: iterate `[...defaultFeatures, ...localOverrides]`
(bundled first, local second) inserting into a `Map` keyed by the
case-folded name, skipping ignored features. -/
def mergeFeatures (defaultFeatures localOverrides : List Feature) (ignore : List String) :
    JSMap (Option String) Feature :=
  (defaultFeatures ++ localOverrides).foldl (mergeStep ignore) []

/-- `loadBaselineIgnore` line processing: split on newlines, trim, lowercase,
drop empty lines, collect into a `Set` (duplicate-free, insertion order). -/
def parseIgnoreLines (content : String) : List String :=
  (((splitNl content.data []).map fun l => jsLower (String.mk (trimChars l))).filter
    fun l => l ≠ "").foldl setAdd []

/-- `new Map(features.map((f) => [f.name?.toLowerCase(), f]))`: the lookup
table both detectors probe; later features overwrite earlier ones on a
shared case-folded name. -/
def featureLookup (features : List Feature) : JSMap (Option String) Feature :=
  features.foldl (fun m f => mapSet m (f.name.map jsLower) f) []

/-- One syntax node of the script AST as seen by the traversal in
`detectFeaturesInJS`: an `Identifier` (with its possibly absent name) or a
`MemberExpression` (with the possibly absent name of its object). -/
inductive JSNode where
  | ident (nm : Option String)
  | member (objName : Option String)
  deriving DecidableEq, Repr

/-- The script AST reduced to the node stream the traversal visits. -/
abbrev JSAst := List JSNode

/-- The visitor body of `detectFeaturesInJS`: case-fold the identifier name
(resp. the member object name, which must additionally be truthy) and probe
the lookup table; a hit is added to the `used` set. -/
def jsVisit (featureMap : JSMap (Option String) Feature) (used : List Feature) (n : JSNode) :
    List Feature :=
  match n with
  | .ident nm =>
      match mapGet featureMap (nm.map jsLower) with
      | some f => setAdd used f
      | none => used
  | .member objName =>
      match objName.map jsLower with
      | some o =>
          if o = "" then used
          else
            match mapGet featureMap (some o) with
            | some f => setAdd used f
            | none => used
      | none => used

/-- `detectFeaturesInJS`: parse (an external library, passed as a function);
on parse failure return `[]`; on success fold the visitor over the node
stream and return the used set as an array. -/
def detectFeaturesInJS (parse : String → Option JSAst) (content : String)
    (features : List Feature) : List Feature :=
  match parse content with
  | none => []
  | some nodes => nodes.foldl (jsVisit (featureLookup features)) []

/-- One style rule reduced to the pseudo components the selector walk
visits: the `pseudo.value` strings, for example `":has"` or `"::before"`. -/
structure CSSRule where
  pseudos : List String
  deriving DecidableEq, Repr

/-- A parsed stylesheet reduced to its rules in walk order. -/
abbrev CSSRoot := List CSSRule

/-- `pseudo.value.replace(leading colon run, "")`: strip every leading
colon marker. -/
def stripColons (s : String) : String :=
  String.mk (s.data.dropWhile fun c => c = ':')

/-- The pseudo visitor of `detectFeaturesInCSS`: strip leading colons,
case-fold, probe the lookup table. -/
def cssVisitPseudo (featureMap : JSMap (Option String) Feature) (used : List Feature)
    (v : String) : List Feature :=
  match mapGet featureMap (some (jsLower (stripColons v))) with
  | some f => setAdd used f
  | none => used

/-- `detectFeaturesInCSS`: the stylesheet parse (an external library,
passed as a function) is NOT wrapped in a try/catch, so a parse error
propagates to the caller; on success walk every rule and every pseudo. -/
def detectFeaturesInCSS (parse : String → Except String CSSRoot) (content : String)
    (features : List Feature) : Except String (List Feature) :=
  match parse content with
  | .error e => .error e
  | .ok root =>
      .ok (root.foldl
        (fun used rule => rule.pseudos.foldl (cssVisitPseudo (featureLookup features)) used) [])

/-- One aggregated report entry: the feature and the `Set` of files it was
detected in. -/
structure ReportEntry where
  feature : Feature
  files : List String
  deriving DecidableEq, Repr

/-- The report `Map` of `run`, keyed by feature id. -/
abbrev Report := JSMap (Option String) ReportEntry

/-- The aggregation body of the per-file loop in `run`:
`entry = report.get(f.id) ?? {feature: f, files: new Set()};
entry.files.add(file); report.set(f.id, entry)`. -/
def reportAdd (report : Report) (file : String) (f : Feature) : Report :=
  let entry := (mapGet report f.id).getD { feature := f, files := [] }
  mapSet report f.id { entry with files := setAdd entry.files file }

/-- Fold the aggregation body over the detected features of one file. -/
def addDetections (report : Report) (file : String) (detected : List Feature) : Report :=
  detected.foldl (fun rep f => reportAdd rep file f) report

/-- The Aggregator as a pure fold over a stream of
(file path, detected features) pairs, as in the loop of `run`. -/
def aggregate (stream : List (String × List Feature)) : Report :=
  stream.foldl (fun rep pr => addDetections rep pr.1 pr.2) []

/-- The extension test of `run` for script files:
the regex for a `.js/.ts/.jsx/.tsx/.html` suffix. -/
def isScriptFile (file : String) : Bool :=
  jsEndsWith file ".js" || jsEndsWith file ".ts" || jsEndsWith file ".jsx" ||
    jsEndsWith file ".tsx" || jsEndsWith file ".html"

/-- The body of the per-file try block of `run`: read the file, pick the
detector by extension.  Reading and the style parse may fail; the script
detector swallows its own parse failures. -/
def processFile (read : String → Except String String) (jsParse : String → Option JSAst)
    (cssParse : String → Except String CSSRoot) (features : List Feature)
    (file : String) : Except String (List Feature) := do
  let content ← read file
  if isScriptFile file then
    pure (detectFeaturesInJS jsParse content features)
  else if jsEndsWith file ".css" then
    detectFeaturesInCSS cssParse content features
  else
    pure []

/-- One iteration of the per-file loop of `run`: the try/catch around the
body turns any error into "this file contributes nothing". -/
def fileStep (read : String → Except String String) (jsParse : String → Option JSAst)
    (cssParse : String → Except String CSSRoot) (features : List Feature)
    (report : Report) (file : String) : Report :=
  match processFile read jsParse cssParse features file with
  | .error _ => report
  | .ok detected => addDetections report file detected

/-- The whole per-file loop of `run`, a total function: no per-file error
escapes it. -/
def scanFiles (read : String → Except String String) (jsParse : String → Option JSAst)
    (cssParse : String → Except String CSSRoot) (features : List Feature)
    (files : List String) : Report :=
  files.foldl (fileStep read jsParse cssParse features) []

/-- One element of the `results` array of `run`. -/
structure ResultEntry where
  id : Option String
  name : Option String
  baseline : BVal
  files : List String
  deriving DecidableEq, Repr

/-- The `results` construction of `run`: one record per report entry, in
report iteration order. -/
def buildResults (report : Report) : List ResultEntry :=
  report.map fun pr =>
    { id := pr.1, name := pr.2.feature.name, baseline := pr.2.feature.baseline,
      files := pr.2.files }

/-- `results.filter((r) => r.baseline === false)`: strict equality with the
boolean `false`.  (The source calls this array `unsafe`, which is a Lean
keyword, hence the name `policyLimited`.) -/
def policyLimited (results : List ResultEntry) : List ResultEntry :=
  results.filter fun r => r.baseline = BVal.b false

/-- `criticalLower = criticalFeatures.map(toLowerCase)` followed by
`results.filter(r => criticalLower.includes(r.id))`: only the critical
list is case-folded, the entry id is compared exactly. -/
def policyCritical (results : List ResultEntry) (criticalFeatures : List String) :
    List ResultEntry :=
  let criticalLower := criticalFeatures.map jsLower
  results.filter fun r => optMem r.id criticalLower

/-- The verdict of `run`: the negation of
`failOnLimited && (limited.length > 0 || criticalDetected.length > 0)`. -/
def policyOk (failOnLimited : Bool) (limited critical : List ResultEntry) : Bool :=
  !(failOnLimited && (limited.length > 0 || critical.length > 0))

/-! Section: Basic lemmas about the JS `Map` and `Set` models -/

theorem mapGet_mapSet_self {α β : Type} [DecidableEq α] (m : JSMap α β) (k : α) (v : β) :
    mapGet (mapSet m k v) k = some v := by
  induction m with
  | nil => simp [mapSet, mapGet]
  | cons p rest ih =>
      by_cases h : p.1 = k
      · simp [mapSet, h, mapGet]
      · simp [mapSet, h, mapGet, ih]

theorem mapGet_mapSet_ne {α β : Type} [DecidableEq α] (m : JSMap α β) (k k' : α) (v : β)
    (h : k' ≠ k) : mapGet (mapSet m k v) k' = mapGet m k' := by
  have h' : ¬k = k' := fun he => h he.symm
  induction m with
  | nil => simp [mapSet, mapGet, h']
  | cons p rest ih =>
      by_cases hp : p.1 = k
      · subst hp
        simp [mapSet, mapGet, h']
      · simp [mapSet, hp, mapGet, ih]

theorem mapGet_mapSet_cases {α β : Type} [DecidableEq α] (m : JSMap α β) (k k' : α) (v w : β)
    (h : mapGet (mapSet m k v) k' = some w) : (k' = k ∧ w = v) ∨ mapGet m k' = some w := by
  by_cases hk : k' = k
  · subst hk
    rw [mapGet_mapSet_self] at h
    exact Or.inl ⟨rfl, (Option.some_inj.mp h).symm⟩
  · rw [mapGet_mapSet_ne m k k' v hk] at h
    exact Or.inr h

theorem mem_mapSet {α β : Type} [DecidableEq α] (m : JSMap α β) (k : α) (v : β)
    (p : α × β) (h : p ∈ mapSet m k v) : p = (k, v) ∨ p ∈ m := by
  induction m with
  | nil => simpa [mapSet] using h
  | cons q rest ih =>
      by_cases hq : q.1 = k
      · simp only [mapSet, hq, if_true, List.mem_cons] at h
        rcases h with h | h
        · exact Or.inl h
        · exact Or.inr (List.mem_cons_of_mem q h)
      · simp only [mapSet, hq, if_false, List.mem_cons] at h
        rcases h with h | h
        · exact Or.inr (h ▸ List.mem_cons_self q rest)
        · rcases ih h with h' | h'
          · exact Or.inl h'
          · exact Or.inr (List.mem_cons_of_mem q h')

theorem keys_mapSet {α β : Type} [DecidableEq α] (m : JSMap α β) (k : α) (v : β) :
    (mapSet m k v).map Prod.fst =
      if k ∈ m.map Prod.fst then m.map Prod.fst else m.map Prod.fst ++ [k] := by
  induction m with
  | nil => simp [mapSet]
  | cons p rest ih =>
      by_cases hp : p.1 = k
      · simp [mapSet, hp]
      · have hp' : ¬k = p.1 := fun he => hp he.symm
        simp only [mapSet, hp, if_false, List.map_cons, List.mem_cons, ih]
        by_cases hk : k ∈ rest.map Prod.fst
        · simp [hk, hp']
        · simp [hk, hp']

theorem mapGet_none_iff {α β : Type} [DecidableEq α] (m : JSMap α β) (k : α) :
    mapGet m k = none ↔ k ∉ m.map Prod.fst := by
  induction m with
  | nil => simp [mapGet]
  | cons p rest ih =>
      by_cases hp : p.1 = k
      · simp [mapGet, hp]
      · have hp' : ¬k = p.1 := fun he => hp he.symm
        simp [mapGet, hp, hp', ih]

theorem mapGet_mem {α β : Type} [DecidableEq α] (m : JSMap α β) (k : α) (v : β)
    (h : mapGet m k = some v) : (k, v) ∈ m := by
  induction m with
  | nil => simp [mapGet] at h
  | cons p rest ih =>
      by_cases hp : p.1 = k
      · simp only [mapGet, hp, if_true, Option.some_inj] at h
        subst h
        exact hp ▸ List.mem_cons_self p rest
      · simp only [mapGet, hp, if_false] at h
        exact List.mem_cons_of_mem p (ih h)

theorem mem_setAdd {α : Type} [DecidableEq α] (l : List α) (x a : α) :
    a ∈ setAdd l x ↔ a ∈ l ∨ a = x := by
  unfold setAdd
  by_cases hx : x ∈ l
  · simp only [hx, if_true]
    exact ⟨Or.inl, fun h => h.elim id fun he => he ▸ hx⟩
  · simp [hx, List.mem_append]

theorem setAdd_nodup {α : Type} [DecidableEq α] (l : List α) (x : α) (h : l.Nodup) :
    (setAdd l x).Nodup := by
  unfold setAdd
  by_cases hx : x ∈ l
  · simpa [hx]
  · simp [hx, List.nodup_append, h]

/-! Section: Policy Evaluator (claim C1) -/

/-- C1: for every final report, critical-feature list and `failOnLimited`
flag, the unsafe entries are exactly those whose baseline is strictly the
boolean `false` (any other value, boolean `true` or a non-boolean status,
is not unsafe), and `ok` holds iff `failOnLimited` is false or both the
unsafe and the critical entries are empty. -/
theorem policy_verdict (results : List ResultEntry) (criticalFeatures : List String)
    (failOnLimited : Bool) :
    (∀ r : ResultEntry, r ∈ policyLimited results ↔ r ∈ results ∧ r.baseline = BVal.b false) ∧
    (policyOk failOnLimited (policyLimited results) (policyCritical results criticalFeatures)
        = true ↔
      failOnLimited = false ∨
        (policyLimited results = [] ∧ policyCritical results criticalFeatures = [])) := by
  constructor
  · intro r
    simp [policyLimited, List.mem_filter]
  · cases failOnLimited <;>
      simp [policyOk, List.length_pos, List.length_eq_zero, or_comm, Decidable.not_not,
        ← List.eq_nil_iff_forall_not_mem]

/-! Section: Script Detector parse failure (claim C5) -/

/-- C5: whenever the script parse fails, the Script Detector returns the
empty sequence; being a total function it propagates no error. -/
theorem detectJS_parse_failure (parse : String → Option JSAst) (content : String)
    (features : List Feature) (h : parse content = none) :
    detectFeaturesInJS parse content features = [] := by
  simp [detectFeaturesInJS, h]

theorem detectJS_parse_failure_witness :
    detectFeaturesInJS (fun _ => none) "const x = (" [] = [] :=
  detectJS_parse_failure (fun _ => none) "const x = (" [] rfl

/-! Section: Style Detector parse failure (claim C6) -/

/-- C6: whenever the stylesheet parse fails, the Style Detector propagates
exactly that error to its caller instead of catching it or returning an
empty sequence. -/
theorem detectCSS_parse_failure (parse : String → Except String CSSRoot) (content : String)
    (features : List Feature) (e : String) (h : parse content = .error e) :
    detectFeaturesInCSS parse content features = Except.error e := by
  simp [detectFeaturesInCSS, h]

theorem detectCSS_parse_failure_witness :
    detectFeaturesInCSS (fun _ => Except.error "Unclosed block") "not a stylesheet" [] =
      Except.error "Unclosed block" :=
  detectCSS_parse_failure (fun _ => Except.error "Unclosed block") "not a stylesheet" [] "Unclosed block" rfl

/-! Section: Catalog merge (claims C2 and C3) -/

theorem mergeFold_get_frozen (ignore : List String) (k : Option String)
    (rest : List Feature) (m : JSMap (Option String) Feature)
    (h : ∀ g ∈ rest, g.name.map jsLower ≠ k) :
    mapGet (rest.foldl (mergeStep ignore) m) k = mapGet m k := by
  induction rest generalizing m with
  | nil => rfl
  | cons g t ih =>
      simp only [List.foldl_cons]
      rw [ih (mergeStep ignore m g) fun g' hg' => h g' (List.mem_cons_of_mem g hg')]
      unfold mergeStep
      by_cases hs : skipFeature ignore g = true
      · simp [hs]
      · simp only [hs, Bool.false_eq_true, if_false]
        exact mapGet_mapSet_ne m (g.name.map jsLower) k g
          fun he => h g (List.mem_cons_self g t) he.symm

/-- C2: local overrides are inserted after the bundled features, so a
(non-ignored) local override is the entry the merged table holds at its
case-folded name, overriding any bundled feature with the same key.  The
hypotheses say the override itself is not skipped by the ignore set and is
the last local entry with that case-folded name. -/
theorem mergeFeatures_local_precedence (bundled pre post : List Feature) (lf : Feature)
    (ignore : List String) (k : String)
    (hk : lf.name.map jsLower = some k)
    (hskip : skipFeature ignore lf = false)
    (hpost : ∀ g ∈ post, g.name.map jsLower ≠ some k) :
    mapGet (mergeFeatures bundled (pre ++ lf :: post) ignore) (some k) = some lf := by
  unfold mergeFeatures
  have hassoc : bundled ++ (pre ++ lf :: post) = (bundled ++ pre) ++ lf :: post := by
    simp [List.append_assoc]
  rw [hassoc, List.foldl_append, List.foldl_cons, mergeFold_get_frozen ignore (some k) post _ hpost]
  unfold mergeStep
  simp only [hskip, Bool.false_eq_true, if_false]
  rw [hk]
  exact mapGet_mapSet_self _ (some k) lf

/-- Witness for C2 at the concrete example of the spec: bundled feature
named `"Foo"` with baseline `false`, local override named `"foo"` with
baseline `true`; the merged entry at key `"foo"` is the override, whose
baseline is `true`. -/
theorem mergeFeatures_local_precedence_witness :
    mapGet (mergeFeatures [⟨some "foo", some "Foo", BVal.b false, ""⟩]
        (mkLocalOverrides [("foo", ⟨some (BVal.b true), none⟩)]) []) (some "foo")
      = some ⟨some "foo", some "foo", BVal.b true, ""⟩ ∧
    (⟨some "foo", some "foo", BVal.b true, ""⟩ : Feature).baseline = BVal.b true := by
  constructor
  · have hml : mkLocalOverrides [("foo", ⟨some (BVal.b true), none⟩)]
        = [⟨some "foo", some "foo", BVal.b true, ""⟩] := by decide
    rw [hml]
    exact mergeFeatures_local_precedence [⟨some "foo", some "Foo", BVal.b false, ""⟩] [] []
      ⟨some "foo", some "foo", BVal.b true, ""⟩ [] "foo" rfl rfl
      (fun g hg => absurd hg (List.not_mem_nil g))
  · rfl

/-- The claim of C3 as stated is false: the merge loop probes the ignore
set with the id exactly as stored, not case-folded.  A bundled feature
with id `"ABC"` whose case-folded id `"abc"` is in the ignore set is still
inserted into the merged table. -/
theorem mergeFeatures_ignore_cex :
    optMem (((⟨some "ABC", some "X", BVal.b false, ""⟩ : Feature).id.map jsLower)) ["abc"]
        = true ∧
    mapGet (mergeFeatures [⟨some "ABC", some "X", BVal.b false, ""⟩] [] ["abc"]) (some "x")
        = some ⟨some "ABC", some "X", BVal.b false, ""⟩ := by
  exact ⟨by decide, by decide⟩

theorem mergeFold_values_pass (ignore : List String) (fs : List Feature)
    (m : JSMap (Option String) Feature)
    (hm : ∀ k f, mapGet m k = some f → skipFeature ignore f = false) :
    ∀ k f, mapGet (fs.foldl (mergeStep ignore) m) k = some f →
      skipFeature ignore f = false := by
  induction fs generalizing m with
  | nil => exact hm
  | cons g t ih =>
      simp only [List.foldl_cons]
      apply ih
      intro k f hget
      unfold mergeStep at hget
      by_cases hs : skipFeature ignore g = true
      · simp only [hs, if_true] at hget
        exact hm k f hget
      · simp only [hs, Bool.false_eq_true, if_false] at hget
        rcases mapGet_mapSet_cases m _ k g f hget with ⟨_, hf⟩ | hold
        · subst hf
          exact Bool.not_eq_true _ ▸ (by simpa using hs)
        · exact hm k f hold

/-- C3 amended: a feature whose case-folded name, or whose id exactly as
stored, is in the ignore set is skipped during merge insertion and never
appears as a value of the merged table, whichever source supplied it.
(The id is probed without case-folding; the ignore tokens themselves are
lowercase, so only an id of identical case can match.) -/
theorem mergeFeatures_ignore_amended (bundled localOverrides : List Feature)
    (ignore : List String) (f : Feature)
    (hf : optMem (f.name.map jsLower) ignore = true ∨ optMem f.id ignore = true) :
    ∀ k, mapGet (mergeFeatures bundled localOverrides ignore) k ≠ some f := by
  intro k hget
  have hpass := mergeFold_values_pass ignore (bundled ++ localOverrides) []
    (fun k' f' h' => by simp [mapGet] at h') k f hget
  unfold skipFeature at hpass
  rcases hf with h | h <;> simp [h] at hpass

theorem mergeFeatures_ignore_amended_witness :
    mapGet (mergeFeatures [⟨some "x", some "Abc", BVal.b true, ""⟩] [] ["abc"]) (some "abc")
      ≠ some ⟨some "x", some "Abc", BVal.b true, ""⟩ :=
  mergeFeatures_ignore_amended [⟨some "x", some "Abc", BVal.b true, ""⟩] [] ["abc"]
    ⟨some "x", some "Abc", BVal.b true, ""⟩ (Or.inl (by decide)) (some "abc")

/-! Section: Catalog Normalizer baseline field (claim C4) -/

theorem list_map_ext {α β : Type} (l : List α) (f g : α → β) (h : ∀ a ∈ l, f a = g a) :
    l.map f = l.map g := by
  induction l with
  | nil => rfl
  | cons a t ih =>
      simp only [List.map_cons]
      rw [h a (List.mem_cons_self a t), ih fun b hb => h b (List.mem_cons_of_mem a hb)]

/-- The claim of C4 as stated is false for the mapping shape: a record
under key `"x"` with no `baseline` field but a legacy `status` field gets
baseline `false`, not the status value — the object branch of
`normalizeFeatures` has no `status` fallback. -/
theorem normalizeFeatures_status_cex :
    normalizeFeatures (.obj [("x", ⟨none, none, none, some (BVal.s "limited"), none⟩)])
        = [⟨some "x", some "x", BVal.b false, ""⟩] ∧
    BVal.b false ≠ BVal.s "limited" :=
  ⟨rfl, by decide⟩

/-- C4 amended: in the sequence shape, `baseline` is the baseline field
when present, else the legacy `status` field when present, else `false`;
in the mapping shape the `status` fallback does not apply and an absent
`baseline` is always `false`. -/
theorem normalizeFeatures_baseline (fs : List RawFeature)
    (es : List (String × RawFeature)) :
    ((normalizeFeatures (.arr fs)).map Feature.baseline =
      fs.map fun f =>
        match f.baseline, f.status with
        | some b, _ => b
        | none, some s => s
        | none, none => BVal.b false) ∧
    ((normalizeFeatures (.obj es)).map Feature.baseline =
      es.map fun e =>
        match e.2.baseline with
        | some b => b
        | none => BVal.b false) := by
  constructor
  · simp only [normalizeFeatures, List.map_map]
    apply list_map_ext
    intro f _
    obtain ⟨i, n, b, s, d⟩ := f
    cases b <;> cases s <;> rfl
  · simp only [normalizeFeatures, List.map_map]
    apply list_map_ext
    intro e _
    obtain ⟨k, i, n, b, s, d⟩ := e
    cases b <;> rfl

/-! Section: Critical-feature policy (claim C7) -/

/-- The claim of C7 as stated is false: only the critical list is
case-folded, the entry id is compared exactly.  An entry with id `"Foo"`
does match the critical element `"Foo"` case-insensitively (they are even
equal), yet the code lowercases the list to `["foo"]` and the exact probe
with `"Foo"` misses, so the entry is not critical and `ok` stays `true`
under `failOnLimited = true`. -/
theorem policyCritical_cex :
    policyCritical [⟨some "Foo", some "Foo", BVal.b true, []⟩] ["Foo"] = [] ∧
    policyOk true (policyLimited [⟨some "Foo", some "Foo", BVal.b true, []⟩])
        (policyCritical [⟨some "Foo", some "Foo", BVal.b true, []⟩] ["Foo"]) = true := by
  exact ⟨by decide, by decide⟩

theorem optMem_iff (o : Option String) (l : List String) :
    optMem o l = true ↔ ∃ s ∈ l, o = some s := by
  cases o with
  | none => simp [optMem]
  | some a => simp [optMem, List.contains, List.elem_iff, eq_comm]

/-- C7 amended: the critical entries are exactly those whose id is equal,
as an exact string, to the lowercased form of some element of the critical
list — so the match is case-insensitive in the critical list but exact on
the entry id — and independently of its baseline value any such entry
forces `ok = false` when `failOnLimited = true`. -/
theorem policyCritical_amended (results : List ResultEntry)
    (criticalFeatures : List String) :
    (∀ r : ResultEntry, r ∈ policyCritical results criticalFeatures ↔
      r ∈ results ∧ ∃ c ∈ criticalFeatures, r.id = some (jsLower c)) ∧
    (∀ r ∈ results, (∃ c ∈ criticalFeatures, r.id = some (jsLower c)) →
      policyOk true (policyLimited results) (policyCritical results criticalFeatures)
        = false) := by
  have hmem : ∀ r : ResultEntry, r ∈ policyCritical results criticalFeatures ↔
      r ∈ results ∧ ∃ c ∈ criticalFeatures, r.id = some (jsLower c) := by
    intro r
    simp only [policyCritical, List.mem_filter]
    rw [optMem_iff]
    simp [List.mem_map]
  refine ⟨hmem, ?_⟩
  intro r hr hc
  have hin : r ∈ policyCritical results criticalFeatures := (hmem r).mpr ⟨hr, hc⟩
  have hlen : 0 < (policyCritical results criticalFeatures).length :=
    List.length_pos.mpr (List.ne_nil_of_mem hin)
  simp [policyOk, hlen]

theorem policyCritical_amended_witness :
    (⟨some "foo", some "Foo", BVal.b true, []⟩ : ResultEntry)
        ∈ policyCritical [⟨some "foo", some "Foo", BVal.b true, []⟩] ["Foo"] ∧
    policyOk true (policyLimited [⟨some "foo", some "Foo", BVal.b true, []⟩])
        (policyCritical [⟨some "foo", some "Foo", BVal.b true, []⟩] ["Foo"]) = false := by
  have h := policyCritical_amended [⟨some "foo", some "Foo", BVal.b true, []⟩] ["Foo"]
  refine ⟨?_, ?_⟩
  · exact (h.1 ⟨some "foo", some "Foo", BVal.b true, []⟩).mpr
      ⟨List.mem_singleton.mpr rfl, "Foo", List.mem_singleton.mpr rfl, by decide⟩
  · exact h.2 ⟨some "foo", some "Foo", BVal.b true, []⟩ (List.mem_singleton.mpr rfl)
      ⟨"Foo", List.mem_singleton.mpr rfl, by decide⟩

/-! Section: Style Detector pseudo matching (claim C8) -/

theorem mem_pseudoFold (fm : JSMap (Option String) Feature) (vs : List String)
    (used : List Feature) (f : Feature) :
    f ∈ vs.foldl (cssVisitPseudo fm) used ↔
      f ∈ used ∨ ∃ v ∈ vs, mapGet fm (some (jsLower (stripColons v))) = some f := by
  induction vs generalizing used with
  | nil => simp
  | cons v t ih =>
      simp only [List.foldl_cons, ih]
      unfold cssVisitPseudo
      cases hg : mapGet fm (some (jsLower (stripColons v))) with
      | none => simp [hg]
      | some g =>
          simp only [hg, mem_setAdd, Option.some_inj, List.mem_cons]
          constructor
          · rintro (⟨h | h⟩ | h)
            · exact Or.inl h
            · exact Or.inr ⟨v, Or.inl rfl, by rw [hg, h]⟩
            · rcases h with ⟨w, hw, hwf⟩
              exact Or.inr ⟨w, Or.inr hw, hwf⟩
          · rintro (h | ⟨w, hw | hw, hwf⟩)
            · exact Or.inl (Or.inl h)
            · subst hw
              rw [hg] at hwf
              exact Or.inl (Or.inr (Option.some_inj.mp hwf).symm)
            · exact Or.inr ⟨w, hw, hwf⟩

theorem mem_cssFold (fm : JSMap (Option String) Feature) (root : CSSRoot)
    (used : List Feature) (f : Feature) :
    f ∈ root.foldl (fun u rule => rule.pseudos.foldl (cssVisitPseudo fm) u) used ↔
      f ∈ used ∨ ∃ r ∈ root, ∃ v ∈ r.pseudos,
        mapGet fm (some (jsLower (stripColons v))) = some f := by
  induction root generalizing used with
  | nil => simp
  | cons rule t ih =>
      simp only [List.foldl_cons, ih, mem_pseudoFold, List.mem_cons]
      constructor
      · rintro (⟨h | ⟨v, hv, hf⟩⟩ | ⟨r, hr, hrest⟩)
        · exact Or.inl h
        · exact Or.inr ⟨rule, Or.inl rfl, v, hv, hf⟩
        · exact Or.inr ⟨r, Or.inr hr, hrest⟩
      · rintro (h | ⟨r, hr | hr, hrest⟩)
        · exact Or.inl (Or.inl h)
        · subst hr
          exact Or.inl (Or.inr hrest)
        · exact Or.inr ⟨r, hr, hrest⟩

/-- C8: on a successful stylesheet parse, the Style Detector output is
characterized per pseudo component: a feature is detected exactly when
some rule has a pseudo component whose value, with every leading colon
marker stripped and the rest case-folded, probes to that feature in the
lookup table.  In particular a rule with the pseudo `":has"` detects a
catalog entry named `"has"`, and a pseudo `":hover"` detects nothing when
no entry has case-folded name `"hover"`. -/
theorem detectCSS_pseudo_probe (parse : String → Except String CSSRoot) (content : String)
    (features : List Feature) (root : CSSRoot) (hp : parse content = .ok root) :
    ∃ l, detectFeaturesInCSS parse content features = .ok l ∧
      ∀ f : Feature, f ∈ l ↔ ∃ r ∈ root, ∃ v ∈ r.pseudos,
        mapGet (featureLookup features) (some (jsLower (stripColons v))) = some f := by
  refine ⟨root.foldl
    (fun used rule => rule.pseudos.foldl (cssVisitPseudo (featureLookup features)) used) [],
    ?_, ?_⟩
  · simp [detectFeaturesInCSS, hp]
  · intro f
    rw [mem_cssFold]
    simp

theorem detectCSS_pseudo_probe_witness :
    ∃ l, detectFeaturesInCSS (fun _ => Except.ok [⟨[":has"]⟩]) "a:has(b)"
        [⟨some "has", some "has", BVal.b true, ""⟩] = Except.ok l ∧
      (⟨some "has", some "has", BVal.b true, ""⟩ : Feature) ∈ l := by
  obtain ⟨l, hl, hiff⟩ := detectCSS_pseudo_probe (fun _ => Except.ok [⟨[":has"]⟩])
    "a:has(b)" [⟨some "has", some "has", BVal.b true, ""⟩] [⟨[":has"]⟩] rfl
  exact ⟨l, hl, (hiff _).mpr ⟨⟨[":has"]⟩, List.mem_singleton.mpr rfl, ":has",
    List.mem_singleton.mpr rfl, by decide⟩⟩

/-! Section: Aggregator invariants (claim C9) -/

/-- First occurrence order of the feature ids of a detection stream. -/
def firstSeenIds (stream : List (String × List Feature)) : List (Option String) :=
  stream.foldl (fun acc pr => pr.2.foldl (fun a f => setAdd a f.id) acc) []

theorem keys_reportAdd (m : Report) (file : String) (f : Feature) :
    (reportAdd m file f).map Prod.fst = setAdd (m.map Prod.fst) f.id := by
  simp only [reportAdd]
  rw [keys_mapSet]
  rfl

theorem keys_addDetections (m : Report) (file : String) (ds : List Feature) :
    (addDetections m file ds).map Prod.fst =
      ds.foldl (fun a f => setAdd a f.id) (m.map Prod.fst) := by
  induction ds generalizing m with
  | nil => rfl
  | cons f t ih =>
      simp only [addDetections, List.foldl_cons]
      have h := ih (reportAdd m file f)
      simp only [addDetections] at h
      rw [h, keys_reportAdd]

theorem reportAdd_files_nodup (m : Report) (file : String) (f : Feature)
    (h2 : ∀ p ∈ m, p.2.files.Nodup) :
    ∀ p ∈ reportAdd m file f, p.2.files.Nodup := by
  intro p hp
  have hent : ((mapGet m f.id).getD { feature := f, files := [] }).files.Nodup := by
    cases hg : mapGet m f.id with
    | none => simp
    | some e => simpa using h2 (f.id, e) (mapGet_mem m f.id e hg)
  simp only [reportAdd] at hp
  rcases mem_mapSet m f.id _ p hp with hpe | hpm
  · subst hpe
    exact setAdd_nodup _ file hent
  · exact h2 p hpm

theorem addDetections_inv (m : Report) (file : String) (ds : List Feature)
    (h1 : (m.map Prod.fst).Nodup) (h2 : ∀ p ∈ m, p.2.files.Nodup) :
    ((addDetections m file ds).map Prod.fst).Nodup ∧
      ∀ p ∈ addDetections m file ds, p.2.files.Nodup := by
  induction ds generalizing m with
  | nil => exact ⟨h1, h2⟩
  | cons f t ih =>
      simp only [addDetections, List.foldl_cons]
      have hk : ((reportAdd m file f).map Prod.fst).Nodup := by
        rw [keys_reportAdd]
        exact setAdd_nodup _ f.id h1
      have h := ih (reportAdd m file f) hk (reportAdd_files_nodup m file f h2)
      simpa only [addDetections] using h

theorem aggregate_inv_aux (stream : List (String × List Feature)) (m : Report)
    (h1 : (m.map Prod.fst).Nodup) (h2 : ∀ p ∈ m, p.2.files.Nodup) :
    ((stream.foldl (fun rep pr => addDetections rep pr.1 pr.2) m).map Prod.fst).Nodup ∧
      ∀ p ∈ stream.foldl (fun rep pr => addDetections rep pr.1 pr.2) m,
        p.2.files.Nodup := by
  induction stream generalizing m with
  | nil => exact ⟨h1, h2⟩
  | cons pr t ih =>
      simp only [List.foldl_cons]
      have h := addDetections_inv m pr.1 pr.2 h1 h2
      exact ih (addDetections m pr.1 pr.2) h.1 h.2

theorem aggregate_keys_aux (stream : List (String × List Feature)) (m : Report) :
    ((stream.foldl (fun rep pr => addDetections rep pr.1 pr.2) m).map Prod.fst) =
      stream.foldl (fun acc pr => pr.2.foldl (fun a f => setAdd a f.id) acc)
        (m.map Prod.fst) := by
  induction stream generalizing m with
  | nil => rfl
  | cons pr t ih =>
      simp only [List.foldl_cons]
      rw [ih (addDetections m pr.1 pr.2), keys_addDetections]

/-- C9: after folding any detection stream the report maps each feature id
to exactly one entry (its key list has no duplicates), the file set of
every entry holds each path at most once — so feeding the same (file, feature)
pair twice still yields one file-path entry — and the iteration order of
the report is the first-seen order of the feature ids. -/
theorem aggregate_report (stream : List (String × List Feature)) :
    ((aggregate stream).map Prod.fst).Nodup ∧
    (∀ p ∈ aggregate stream, p.2.files.Nodup) ∧
    (aggregate stream).map Prod.fst = firstSeenIds stream := by
  have h := aggregate_inv_aux stream [] (by simp) (by simp)
  exact ⟨h.1, h.2, aggregate_keys_aux stream []⟩

theorem aggregate_report_witness :
    ((aggregate [("a.js", [⟨some "x", some "x", BVal.b false, ""⟩]),
        ("a.js", [⟨some "x", some "x", BVal.b false, ""⟩])]).map Prod.fst).Nodup ∧
    ((some "x",
        ({ feature := ⟨some "x", some "x", BVal.b false, ""⟩, files := ["a.js"] } :
          ReportEntry)).2.files).Nodup ∧
    (aggregate [("a.js", [⟨some "x", some "x", BVal.b false, ""⟩]),
        ("a.js", [⟨some "x", some "x", BVal.b false, ""⟩])]).map Prod.fst =
      firstSeenIds [("a.js", [⟨some "x", some "x", BVal.b false, ""⟩]),
        ("a.js", [⟨some "x", some "x", BVal.b false, ""⟩])] :=
  ⟨(aggregate_report _).1,
   (aggregate_report [("a.js", [⟨some "x", some "x", BVal.b false, ""⟩]),
      ("a.js", [⟨some "x", some "x", BVal.b false, ""⟩])]).2.1 _ (by decide),
   (aggregate_report _).2.2⟩

/-! Section: Per-file error handling in the scan loop (claim C10) -/

/-- C10: when processing a file fails — the read fails, or the Style
Detector propagates a stylesheet parse error — the try/catch inside the
per-file loop swallows the error: the scan of the whole file list is the
same as with that file absent, the file contributes zero detections, and
the loop (a total function) propagates no per-file error to the caller of
`run`. -/
theorem scanFiles_skips_failing_file (read : String → Except String String)
    (jsParse : String → Option JSAst) (cssParse : String → Except String CSSRoot)
    (features : List Feature) (l1 l2 : List String) (file : String) (e : String)
    (h : processFile read jsParse cssParse features file = .error e) :
    scanFiles read jsParse cssParse features (l1 ++ file :: l2)
      = scanFiles read jsParse cssParse features (l1 ++ l2) := by
  unfold scanFiles
  rw [List.foldl_append, List.foldl_append, List.foldl_cons]
  have hstep : fileStep read jsParse cssParse features
      (l1.foldl (fileStep read jsParse cssParse features) []) file
      = l1.foldl (fileStep read jsParse cssParse features) [] := by
    unfold fileStep
    rw [h]
  rw [hstep]

theorem scanFiles_skips_failing_file_witness :
    scanFiles (fun _ => Except.ok "body { color }") (fun _ => none)
        (fun _ => Except.error "CssSyntaxError") [] ["a.css"]
      = scanFiles (fun _ => Except.ok "body { color }") (fun _ => none)
        (fun _ => Except.error "CssSyntaxError") [] [] :=
  scanFiles_skips_failing_file (fun _ => Except.ok "body { color }") (fun _ => none)
    (fun _ => Except.error "CssSyntaxError") [] [] [] "a.css" "CssSyntaxError" rfl

end BaselineScan
